import Mathlib

set_option maxHeartbeats 1000000
set_option maxRecDepth 4096

/- Verification development for the speech-playback engine of the
   novel-reader client.  The chunker, word-position estimator, voice
   normalization and playback controller are embedded from
   src/hooks/use-tts.ts together with src/lib/native-tts.ts,
   src/lib/keep-awake.ts and src/lib/foreground-service.ts.
   Strings are modelled as `List Char`; JS numbers are modelled as `ℚ`
   (exact arithmetic), except the power-law speech-rate model, which is
   modelled over `ℝ`. -/

/-- Sentence-terminator character class of the chunker regex
`[.!?\n]` used by `splitIntoSentences`. -/
def isTerm (c : Char) : Bool :=
  c == '.' || c == '!' || c == '?' || c == '\n'

/-- Whitespace class: the common characters matched by the JS `\s` class
and trimmed by `String.prototype.trim` (the exotic Unicode space code
points are omitted; no claim depends on them). -/
def isWs (c : Char) : Bool :=
  c == ' ' || c == '\t' || c == '\n' || c == '\r' || c == '\x0b' || c == '\x0c'

/-- True when the string contains a non-whitespace character, i.e. when
the JS expression `text.trim()` is truthy. -/
def hasNonWs (l : List Char) : Bool := l.any (fun c => !(isWs c))

/-- `MAX_CHUNK_WEB` from use-tts.ts: small chunks for Web Speech. -/
def MAX_CHUNK_WEB : Nat := 80

/-- `MAX_CHUNK_CLOUD` from use-tts.ts: large chunks for native/cloud TTS. -/
def MAX_CHUNK_CLOUD : Nat := 4000

/-- `getMaxChunkChars` from use-tts.ts, with the platform flag made an
explicit argument. -/
def getMaxChunkChars (isNativePlatform : Bool) : Nat :=
  if isNativePlatform then MAX_CHUNK_CLOUD else MAX_CHUNK_WEB

/-- One step of the global regex `/[^.!?\n]+[.!?\n]+\s*/g`: the first
match at or after the current position.  Returns
`(gap, match, rest)` where `gap` is the run of characters the engine
skipped before the match starts (these characters are dropped by the
surrounding loop in `splitIntoSentences`, which only collects `match[0]`
and tracks `lastIndex`).  The greedy sub-patterns cannot backtrack into
each other because the classes are complementary, so each match is
`nonTerminatorRun ++ terminatorRun ++ whitespaceRun`. -/
def findMatch : List Char → Option (List Char × List Char × List Char)
  | [] => none
  | c :: cs =>
    if isTerm c then
      -- a match cannot start on a terminator: the engine advances one char
      match findMatch cs with
      | some (g, m, r) => some (c :: g, m, r)
      | none => none
    else
      let nt := (c :: cs).takeWhile (fun d => !isTerm d)
      let after := (c :: cs).dropWhile (fun d => !isTerm d)
      if after.isEmpty then
        -- no terminator anywhere after the run: no match here or later
        none
      else
        let tr := after.takeWhile (fun d => isTerm d)
        let rest2 := after.dropWhile (fun d => isTerm d)
        let ws := rest2.takeWhile (fun d => isWs d)
        some ([], nt ++ tr ++ ws, rest2.dropWhile (fun d => isWs d))

/-- The `while ((match = regex.exec(text)) !== null)` loop of
`splitIntoSentences`: collects all matches in order and returns them
together with the text after the final match (`text.slice(lastIndex)`).
Fuel-based structural recursion; each match consumes at least two
characters, so `l.length + 1` fuel never runs out. -/
def scanF : Nat → List Char → List (List Char) × List Char
  | 0, l => ([], l)
  | fuel + 1, l =>
    match findMatch l with
    | none => ([], l)
    | some (_, m, r) =>
      let pr := scanF fuel r
      (m :: pr.1, pr.2)

/-- All regex matches of the sentence pattern plus the unmatched tail. -/
def scan (l : List Char) : List (List Char) × List Char := scanF (l.length + 1) l

/-- True when the regex scan skips no characters: every match starts
exactly where the previous one ended.  `splitIntoSentences` silently
drops skipped characters, so losslessness needs this side condition. -/
def gapFreeF : Nat → List Char → Bool
  | 0, _ => true
  | fuel + 1, l =>
    match findMatch l with
    | none => true
    | some (g, _, r) => g.isEmpty && gapFreeF fuel r

/-- Gap-freedom of the sentence scan of `l` (same fuel as `scan`). -/
def gapFree (l : List Char) : Bool := gapFreeF (l.length + 1) l

/-- JS `startsWith` on character lists. -/
def startsWithL : List Char → List Char → Bool
  | [], _ => true
  | _ :: _, [] => false
  | p :: ps, c :: cs => p == c && startsWithL ps cs

/-- JS `String.prototype.lastIndexOf(pat, fromIndex)`: the largest
position `k ≤ fromIndex` at which `pat` occurs in `l`, or `none`. -/
def lastIndexOfAt (l pat : List Char) : Nat → Option Nat
  | 0 => if startsWithL pat l then some 0 else none
  | k + 1 =>
    if startsWithL pat (l.drop (k + 1)) then some (k + 1)
    else lastIndexOfAt l pat k

/-- JS value of an index search: `-1` when absent. -/
def jsIdx (o : Option Nat) : Int :=
  match o with
  | none => -1
  | some k => (k : Int)

/-- The split-point computation inside the long-sentence loop of
`splitIntoSentences`:
`let splitAt = remaining.lastIndexOf('. ', maxChunk); if (splitAt <= 0) ...`.
Note that a hit at index 0 is treated like a miss (`<= 0`), and a hit at
a positive index is incremented by one. -/
def pickSplit (maxChunk : Nat) (remaining : List Char) : Nat :=
  let a := jsIdx (lastIndexOfAt remaining ['.', ' '] maxChunk)
  let a := if a ≤ 0 then jsIdx (lastIndexOfAt remaining [',', ' '] maxChunk) else a
  let a := if a ≤ 0 then jsIdx (lastIndexOfAt remaining [' '] maxChunk) else a
  if a ≤ 0 then maxChunk else a.toNat + 1

/-- The `while (remaining.length > maxChunk)` loop of
`splitIntoSentences`: repeatedly cuts `remaining` at `pickSplit` and
collects the pieces; returns `(pieces, final buffer)`.  Fuel-based
structural recursion: each cut removes at least one character whenever
`1 ≤ maxChunk` (the code only uses 80 and 4000; with `maxChunk = 0` the
JS loop would not terminate). -/
def hardSplitF : Nat → Nat → List Char → List (List Char) × List Char
  | 0, _, remaining => ([], remaining)
  | fuel + 1, maxChunk, remaining =>
    if remaining.length ≤ maxChunk then ([], remaining)
    else
      let s := pickSplit maxChunk remaining
      let pr := hardSplitF fuel maxChunk (remaining.drop s)
      (remaining.take s :: pr.1, pr.2)

/-- Long-sentence splitting with adequate fuel. -/
def hardSplit (maxChunk : Nat) (remaining : List Char) : List (List Char) × List Char :=
  hardSplitF remaining.length maxChunk remaining

/-- The merging loop of `splitIntoSentences`: greedily packs sentence
parts into a buffer of at most `maxChunk` characters, hard-splitting
parts that alone exceed the limit. -/
def mergeLoop (maxChunk : Nat) : List (List Char) → List Char → List (List Char)
  | [], buffer => if buffer.isEmpty then [] else [buffer]
  | part :: rest, buffer =>
    if buffer.length + part.length ≤ maxChunk then
      mergeLoop maxChunk rest (buffer ++ part)
    else
      let pre := if buffer.isEmpty then ([] : List (List Char)) else [buffer]
      if maxChunk < part.length then
        let pr := hardSplit maxChunk part
        pre ++ pr.1 ++ mergeLoop maxChunk rest pr.2
      else
        pre ++ mergeLoop maxChunk rest part

/-- `splitIntoSentences` from use-tts.ts, with the chunk limit made an
explicit argument (the source reads it from `getMaxChunkChars()`).
The scan collects the regex matches; a non-whitespace unmatched tail is
appended; the `parts.length === 0 && text.trim()` fallback returns the
whole text; otherwise the parts are merged up to the chunk limit. -/
def splitIntoSentences (maxChunk : Nat) (text : List Char) : List (List Char) :=
  let pr := scan text
  let parts :=
    if pr.2.isEmpty then pr.1
    else if hasNonWs pr.2 then pr.1 ++ [pr.2] else pr.1
  if parts.isEmpty && hasNonWs text then [text]
  else mergeLoop maxChunk parts []


theorem findMatch_shape : ∀ (l g m r : List Char), findMatch l = some (g, m, r) →
    g ++ m ++ r = l ∧ m ≠ [] := by
  intro l
  induction l with
  | nil => intro g m r h; simp [findMatch] at h
  | cons c cs ih =>
    intro g m r h
    by_cases hc : isTerm c
    · rw [findMatch, if_pos hc] at h
      cases hfm : findMatch cs with
      | none => rw [hfm] at h; simp at h
      | some t =>
        obtain ⟨g', m', r'⟩ := t
        rw [hfm] at h
        simp only [Option.some.injEq, Prod.mk.injEq] at h
        obtain ⟨hg, hm, hr⟩ := h
        obtain ⟨heq, hne⟩ := ih g' m' r' hfm
        subst hg hm hr
        refine ⟨?_, hne⟩
        simpa using congrArg (c :: ·) heq
    · rw [findMatch, if_neg hc] at h
      simp only at h
      by_cases hafter : ((c :: cs).dropWhile (fun d => !isTerm d)).isEmpty
      · rw [if_pos hafter] at h; simp at h
      · rw [if_neg hafter] at h
        simp only [Option.some.injEq, Prod.mk.injEq] at h
        obtain ⟨hg, hm, hr⟩ := h
        subst hg hm hr
        constructor
        · rw [List.nil_append]
          rw [List.append_assoc, List.append_assoc]
          rw [List.takeWhile_append_dropWhile]
          rw [List.takeWhile_append_dropWhile]
          exact List.takeWhile_append_dropWhile _ _
        · have : (c :: cs).takeWhile (fun d => !isTerm d) = c :: cs.takeWhile (fun d => !isTerm d) := by
            rw [List.takeWhile_cons_of_pos]
            simp [hc]
          simp [this]

theorem scanF_flatten : ∀ (fuel : Nat) (l : List Char), gapFreeF fuel l = true →
    (scanF fuel l).1.flatten ++ (scanF fuel l).2 = l := by
  intro fuel
  induction fuel with
  | zero => intro l _; simp [scanF]
  | succ fuel ih =>
    intro l hg
    rw [scanF]
    rw [gapFreeF] at hg
    cases hfm : findMatch l with
    | none => simp
    | some t =>
      obtain ⟨g, m, r⟩ := t
      rw [hfm] at hg
      simp only [Bool.and_eq_true, List.isEmpty_iff] at hg
      obtain ⟨hgap, hrec⟩ := hg
      obtain ⟨heq, -⟩ := findMatch_shape l g m r hfm
      subst hgap
      simp only [List.nil_append] at heq
      simp only [List.flatten_cons, List.append_assoc]
      rw [ih r hrec]
      exact heq

theorem hardSplitF_flatten : ∀ (fuel maxChunk : Nat) (remaining : List Char),
    (hardSplitF fuel maxChunk remaining).1.flatten ++ (hardSplitF fuel maxChunk remaining).2 = remaining := by
  intro fuel
  induction fuel with
  | zero => intro maxChunk remaining; simp [hardSplitF]
  | succ fuel ih =>
    intro maxChunk remaining
    rw [hardSplitF]
    by_cases hle : remaining.length ≤ maxChunk
    · simp [hle]
    · simp only [hle, if_false]
      simp only [List.flatten_cons, List.append_assoc]
      rw [ih]
      exact List.take_append_drop _ _

theorem mergeLoop_flatten : ∀ (maxChunk : Nat) (parts : List (List Char)) (buffer : List Char),
    (mergeLoop maxChunk parts buffer).flatten = buffer ++ parts.flatten := by
  intro maxChunk parts
  induction parts with
  | nil =>
    intro buffer
    rw [mergeLoop]
    by_cases hb : buffer.isEmpty
    · simp_all [List.isEmpty_iff]
    · simp [hb]
  | cons part rest ih =>
    intro buffer
    rw [mergeLoop]
    by_cases hfit : buffer.length + part.length ≤ maxChunk
    · rw [if_pos hfit, ih]
      simp
    · rw [if_neg hfit]
      have hpre : (if buffer.isEmpty then ([] : List (List Char)) else [buffer]).flatten = buffer := by
        by_cases hb : buffer.isEmpty
        · simp_all [List.isEmpty_iff]
        · simp [hb]
      by_cases hlong : maxChunk < part.length
      · rw [if_pos hlong]
        simp only [List.flatten_append, List.append_assoc, hpre, ih]
        rw [← List.append_assoc ((hardSplit maxChunk part).1.flatten)]
        simp only [hardSplit]
        rw [hardSplitF_flatten]
        simp
      · rw [if_neg hlong]
        simp only [List.flatten_append, hpre, ih]
        simp

/-- Claim C1 (amended): concatenating the returned segments reproduces
the input whenever the sentence scan skips no characters and the
unmatched tail is empty or contains a non-whitespace character. -/
theorem splitIntoSentences_lossless_of_gapFree (maxChunk : Nat) (text : List Char)
    (h1 : gapFree text = true)
    (h2 : (scan text).2 = [] ∨ hasNonWs (scan text).2 = true) :
    (splitIntoSentences maxChunk text).flatten = text := by
  rw [splitIntoSentences]
  have hscan : (scan text).1.flatten ++ (scan text).2 = text := scanF_flatten _ _ h1
  by_cases hdead : ((if (scan text).2.isEmpty then (scan text).1
      else if hasNonWs (scan text).2 then (scan text).1 ++ [(scan text).2] else (scan text).1).isEmpty
      && hasNonWs text) = true
  · simp only [hdead, if_true]
    simp
  · simp only [hdead]
    rw [if_neg (by simp)]
    rw [mergeLoop_flatten]
    rw [List.nil_append]
    by_cases hrem : (scan text).2.isEmpty
    · rw [if_pos hrem]
      rw [List.isEmpty_iff] at hrem
      rw [hrem] at hscan
      simpa using hscan
    · rw [if_neg hrem]
      rw [List.isEmpty_iff] at hrem
      have hnws : hasNonWs (scan text).2 = true := by
        cases h2 with
        | inl h => exact absurd h hrem
        | inr h => exact h
      rw [if_pos hnws]
      simpa using hscan

/-- Claim C1 counterexample: on the input `".a."` the regex skips the
leading terminator character, so the segments concatenate to `"a."`. -/
theorem splitIntoSentences_not_lossless_on_skipped_terminator :
    (splitIntoSentences 80 ".a.".toList).flatten ≠ ".a.".toList := by decide

/-- Witness for the amended claim C1 at a concrete input. -/
theorem splitIntoSentences_lossless_witness :
    gapFree "Hi there. Bye.".toList = true ∧
    (splitIntoSentences 80 "Hi there. Bye.".toList).flatten = "Hi there. Bye.".toList :=
  ⟨by decide, splitIntoSentences_lossless_of_gapFree 80 "Hi there. Bye.".toList (by decide)
    (Or.inl (by decide))⟩

theorem lastIndexOfAt_le : ∀ (k0 : Nat) (l pat : List Char) (k : Nat),
    lastIndexOfAt l pat k0 = some k → k ≤ k0 := by
  intro k0
  induction k0 with
  | zero =>
    intro l pat k h
    rw [lastIndexOfAt] at h
    split at h
    · simp only [Option.some.injEq] at h; omega
    · simp at h
  | succ k0 ih =>
    intro l pat k h
    rw [lastIndexOfAt] at h
    split at h
    · simp only [Option.some.injEq] at h; omega
    · exact Nat.le_succ_of_le (ih l pat k h)

theorem jsIdx_le_fromIdx (l pat : List Char) (k0 : Nat) :
    jsIdx (lastIndexOfAt l pat k0) ≤ (k0 : Int) := by
  cases h : lastIndexOfAt l pat k0 with
  | none => simp [jsIdx]; omega
  | some k =>
    have := lastIndexOfAt_le k0 l pat k h
    simp only [jsIdx]
    omega

theorem pickSplit_le (maxChunk : Nat) (remaining : List Char) :
    pickSplit maxChunk remaining ≤ maxChunk + 1 := by
  have b1 := jsIdx_le_fromIdx remaining ['.', ' '] maxChunk
  have b2 := jsIdx_le_fromIdx remaining [',', ' '] maxChunk
  have b3 := jsIdx_le_fromIdx remaining [' '] maxChunk
  simp only [pickSplit]
  split_ifs <;> omega

theorem pickSplit_pos (maxChunk : Nat) (remaining : List Char) (hmax : 1 ≤ maxChunk) :
    1 ≤ pickSplit maxChunk remaining := by
  simp only [pickSplit]
  split_ifs <;> omega

theorem hardSplitF_bounds (maxChunk : Nat) (hmax : 1 ≤ maxChunk) :
    ∀ (fuel : Nat) (remaining : List Char), remaining.length ≤ fuel →
      (∀ p ∈ (hardSplitF fuel maxChunk remaining).1, p.length ≤ maxChunk + 1) ∧
      (hardSplitF fuel maxChunk remaining).2.length ≤ maxChunk := by
  intro fuel
  induction fuel with
  | zero =>
    intro remaining hlen
    have hnil : remaining = [] := List.eq_nil_of_length_eq_zero (Nat.le_zero.mp hlen)
    subst hnil
    simp [hardSplitF]
  | succ fuel ih =>
    intro remaining hlen
    rw [hardSplitF]
    by_cases hle : remaining.length ≤ maxChunk
    · simp [hle]
    · simp only [hle, if_false]
      have hs1 : 1 ≤ pickSplit maxChunk remaining := pickSplit_pos _ _ hmax
      have hs2 : pickSplit maxChunk remaining ≤ maxChunk + 1 := pickSplit_le _ _
      have hdrop : (remaining.drop (pickSplit maxChunk remaining)).length ≤ fuel := by
        simp only [List.length_drop]
        omega
      obtain ⟨ihp, ihb⟩ := ih _ hdrop
      refine ⟨?_, ihb⟩
      intro p hp
      simp only [List.mem_cons] at hp
      cases hp with
      | inl h =>
        subst h
        simp only [List.length_take]
        omega
      | inr h => exact ihp p h

theorem mergeLoop_length_le (maxChunk : Nat) (hmax : 1 ≤ maxChunk) :
    ∀ (parts : List (List Char)) (buffer : List Char), buffer.length ≤ maxChunk →
      ∀ seg ∈ mergeLoop maxChunk parts buffer, seg.length ≤ maxChunk + 1 := by
  intro parts
  induction parts with
  | nil =>
    intro buffer hb seg hseg
    rw [mergeLoop] at hseg
    split at hseg
    · simp at hseg
    · simp only [List.mem_singleton] at hseg
      subst hseg
      omega
  | cons part rest ih =>
    intro buffer hb seg hseg
    rw [mergeLoop] at hseg
    have hpre : ∀ x ∈ (if buffer.isEmpty then ([] : List (List Char)) else [buffer]), x.length ≤ maxChunk + 1 := by
      intro x hx
      split at hx
      · simp at hx
      · simp only [List.mem_singleton] at hx
        subst hx
        omega
    by_cases hfit : buffer.length + part.length ≤ maxChunk
    · rw [if_pos hfit] at hseg
      refine ih _ ?_ seg hseg
      simp only [List.length_append]
      omega
    · rw [if_neg hfit] at hseg
      by_cases hlong : maxChunk < part.length
      · rw [if_pos hlong] at hseg
        simp only [List.mem_append] at hseg
        have hbounds := hardSplitF_bounds maxChunk hmax part.length part (Nat.le_refl _)
        rcases hseg with (h | h) | h
        · exact hpre seg h
        · exact hbounds.1 seg h
        · exact ih _ hbounds.2 seg h
      · rw [if_neg hlong] at hseg
        simp only [List.mem_append] at hseg
        cases hseg with
        | inl h => exact hpre seg h
        | inr h => exact ih _ (by omega) seg h

theorem scanF_parts_nil (fuel : Nat) (l : List Char) (h : (scanF fuel l).1 = []) :
    (scanF fuel l).2 = l := by
  cases fuel with
  | zero => simp [scanF]
  | succ fuel =>
    rw [scanF] at h ⊢
    cases hfm : findMatch l with
    | none => simp
    | some t =>
      obtain ⟨g, m, r⟩ := t
      rw [hfm] at h
      simp at h

/-- Claim C2 (amended): every returned segment has length at most
`maxChunk + 1` (the size bound can be exceeded by exactly one character
when a break point is found at index exactly `maxChunk`). -/
theorem splitIntoSentences_seg_le (maxChunk : Nat) (text : List Char) (hmax : 1 ≤ maxChunk) :
    ∀ seg ∈ splitIntoSentences maxChunk text, seg.length ≤ maxChunk + 1 := by
  intro seg hseg
  rw [splitIntoSentences] at hseg
  by_cases hdead : ((if (scan text).2.isEmpty then (scan text).1
      else if hasNonWs (scan text).2 then (scan text).1 ++ [(scan text).2] else (scan text).1).isEmpty
      && hasNonWs text) = true
  · exfalso
    rw [Bool.and_eq_true] at hdead
    obtain ⟨hparts, hnws⟩ := hdead
    by_cases hrem : (scan text).2.isEmpty
    · rw [if_pos hrem] at hparts
      have h1 : (scan text).1 = [] := List.isEmpty_iff.mp hparts
      have h2 : (scan text).2 = text := scanF_parts_nil _ _ h1
      rw [List.isEmpty_iff, h2] at hrem
      subst hrem
      simp [hasNonWs] at hnws
    · rw [if_neg hrem] at hparts
      by_cases hn : hasNonWs (scan text).2
      · rw [if_pos hn] at hparts
        simp at hparts
      · rw [if_neg hn] at hparts
        have h1 : (scan text).1 = [] := List.isEmpty_iff.mp hparts
        have h2 : (scan text).2 = text := scanF_parts_nil _ _ h1
        rw [h2] at hn
        exact hn hnws
  · rw [if_neg hdead] at hseg
    exact mergeLoop_length_le maxChunk hmax _ [] (Nat.zero_le _) seg hseg

/-- The input exhibiting the off-by-one in the size bound: eighty `a`s,
a space at index 80, then `b`. -/
def c2text : List Char := List.replicate 80 'a' ++ [' ', 'b']

/-- Longest run of consecutive non-space characters (every break pattern
of the hard-split loop contains a space, so a run without spaces is
unbreakable). -/
def maxRunAux : List Char → Nat → Nat → Nat
  | [], cur, best => max cur best
  | c :: rest, cur, best =>
    if c == ' ' then maxRunAux rest 0 (max cur best) else maxRunAux rest (cur + 1) best

/-- Length of the longest unbreakable (space-free) run of a segment. -/
def maxNoSpaceRun (l : List Char) : Nat := maxRunAux l 0 0

/-- Claim C2 counterexample: with limit 80 the input `c2text` produces a
first segment of 81 characters whose longest unbreakable run is only 80,
so neither the stated bound nor its exception holds. -/
theorem splitIntoSentences_size_bound_counterexample :
    ¬ (∀ seg ∈ splitIntoSentences 80 c2text,
        seg.length ≤ 80 ∨ (80 < maxNoSpaceRun seg ∧ seg.length = 80)) := by decide

/-- Witness for the amended claim C2 at a concrete input. -/
theorem splitIntoSentences_seg_le_witness :
    (1 ≤ 80 ∧ (c2text.take 81) ∈ splitIntoSentences 80 c2text) ∧ (c2text.take 81).length ≤ 80 + 1 :=
  ⟨⟨by decide, by decide⟩,
    splitIntoSentences_seg_le 80 c2text (by decide) (c2text.take 81) (by decide)⟩

/-- `buildWordMap` from use-tts.ts: the matches of `/\S+/g` paired with
their start offsets.  Translated as a single left-to-right pass that
tracks the position and the word currently being read (in reverse). -/
def buildWordMapAux : List Char → Nat → Option (List Char × Nat) → List (List Char × Nat)
  | [], _, none => []
  | [], _, some (w, st) => [(w.reverse, st)]
  | c :: rest, pos, none =>
    if isWs c then buildWordMapAux rest (pos + 1) none
    else buildWordMapAux rest (pos + 1) (some ([c], pos))
  | c :: rest, pos, some (w, st) =>
    if isWs c then (w.reverse, st) :: buildWordMapAux rest (pos + 1) none
    else buildWordMapAux rest (pos + 1) (some (c :: w, st))

/-- Word/offset pairs of a segment (`buildWordMap`). -/
def buildWordMap (text : List Char) : List (List Char × Nat) :=
  buildWordMapAux text 0 none

/-- Start offsets of the words of a segment. -/
def wordStarts (text : List Char) : List Nat := (buildWordMap text).map (fun w => w.2)

/-- `wordFractions` from `startWordStepper`: each word start divided by
the last word start, or 0 when the last start is 0. -/
def wordFractions (starts : List Nat) (lastStart : Nat) : List ℚ :=
  starts.map (fun s : Nat => if 0 < lastStart then (s : ℚ) / (lastStart : ℚ) else 0)

/-- Elapsed-time fraction of the estimated duration, clamped at 1
(`Math.min(elapsed / estimatedDurationMs, 1)`). -/
def fractionAt (elapsed durMs : ℚ) : ℚ := min (elapsed / durMs) 1

/-- Largest index whose fraction has been passed: the backwards scan
`for (let i = words.length - 1; i >= 0; i--) if (fraction >= wordFractions[i]) break`. -/
def lastLe : List ℚ → ℚ → Option Nat
  | [], _ => none
  | f :: rest, x =>
    match lastLe rest x with
    | some j => some (j + 1)
    | none => if f ≤ x then some 0 else none

/-- The word index reported by one tick (`wordIdx`, defaulting to 0). -/
def wordIdxAt (fracs : List ℚ) (x : ℚ) : Nat := (lastLe fracs x).getD 0

/-- The global character offset a tick of the word stepper reports at
elapsed time `elapsed` (`globalOffset + words[wordIdx].start`). -/
def reportedOffsetAt (text : List Char) (globalOffset : Nat) (durMs elapsed : ℚ) : Nat :=
  let starts := wordStarts text
  globalOffset +
    starts.getD
      (wordIdxAt (wordFractions starts (starts.getLast?.getD 0)) (fractionAt elapsed durMs)) 0

/-- One invocation of the `step` closure of `startWordStepper`: given the
previously reported word index, returns the new index and the position
update, which is emitted only when the index changed
(`if (wordIdx !== lastWordIdx)`). -/
def stepTick (text : List Char) (globalOffset : Nat) (durMs elapsed : ℚ)
    (lastWordIdx : Nat) : Nat × Option Nat :=
  let starts := wordStarts text
  let idx := wordIdxAt (wordFractions starts (starts.getLast?.getD 0)) (fractionAt elapsed durMs)
  if idx ≠ lastWordIdx then (idx, some (globalOffset + starts.getD idx 0))
  else (lastWordIdx, none)

theorem lastLe_lt_length : ∀ (fracs : List ℚ) (x : ℚ) (i : Nat),
    lastLe fracs x = some i → i < fracs.length := by
  intro fracs
  induction fracs with
  | nil => intro x i h; simp [lastLe] at h
  | cons f rest ih =>
    intro x i h
    rw [lastLe] at h
    cases hr : lastLe rest x with
    | some j =>
      rw [hr] at h
      simp only [Option.some.injEq] at h
      have := ih x j hr
      simp only [List.length_cons]
      omega
    | none =>
      rw [hr] at h
      by_cases hf : f ≤ x
      · rw [if_pos hf] at h
        simp only [Option.some.injEq] at h
        simp only [List.length_cons]
        omega
      · rw [if_neg hf] at h
        simp at h

theorem lastLe_mono (x y : ℚ) (hxy : x ≤ y) : ∀ (fracs : List ℚ) (i : Nat),
    lastLe fracs x = some i → ∃ j, lastLe fracs y = some j ∧ i ≤ j := by
  intro fracs
  induction fracs with
  | nil => intro i h; simp [lastLe] at h
  | cons f rest ih =>
    intro i h
    rw [lastLe] at h
    cases hr : lastLe rest x with
    | some j =>
      rw [hr] at h
      simp only [Option.some.injEq] at h
      obtain ⟨j₂, hj₂, hle⟩ := ih j hr
      refine ⟨j₂ + 1, ?_, by omega⟩
      rw [lastLe, hj₂]
    | none =>
      rw [hr] at h
      by_cases hf : f ≤ x
      · rw [if_pos hf] at h
        simp only [Option.some.injEq] at h
        subst h
        cases hr₂ : lastLe rest y with
        | some j₂ => exact ⟨j₂ + 1, by rw [lastLe, hr₂], by omega⟩
        | none =>
          refine ⟨0, ?_, Nat.le_refl 0⟩
          rw [lastLe, hr₂]
          simp [le_trans hf hxy]
      · rw [if_neg hf] at h
        simp at h

theorem wordIdxAt_mono (fracs : List ℚ) (x y : ℚ) (hxy : x ≤ y) :
    wordIdxAt fracs x ≤ wordIdxAt fracs y := by
  rw [wordIdxAt, wordIdxAt]
  cases h : lastLe fracs x with
  | none => simp
  | some i =>
    obtain ⟨j, hj, hle⟩ := lastLe_mono x y hxy fracs i h
    rw [hj]
    simpa using hle

theorem wordIdxAt_lt_length (fracs : List ℚ) (x : ℚ) (hne : fracs ≠ []) :
    wordIdxAt fracs x < fracs.length := by
  rw [wordIdxAt]
  cases h : lastLe fracs x with
  | none =>
    simp only [Option.getD_none]
    exact List.length_pos.mpr hne
  | some i =>
    simpa using lastLe_lt_length fracs x i h

theorem buildWordMapAux_lb : ∀ (l : List Char) (pos : Nat) (acc : Option (List Char × Nat)),
    (∀ w st, acc = some (w, st) → st ≤ pos) →
    ∀ x ∈ (buildWordMapAux l pos acc).map (fun w => w.2),
      (match acc with | some (_, st) => st | none => pos) ≤ x := by
  intro l
  induction l with
  | nil =>
    intro pos acc hacc x hx
    cases acc with
    | none => simp [buildWordMapAux] at hx
    | some t =>
      obtain ⟨w, st⟩ := t
      simp only [buildWordMapAux, List.map_cons, List.map_nil, List.mem_singleton] at hx
      subst hx
      exact Nat.le_refl _
  | cons c rest ih =>
    intro pos acc hacc x hx
    cases acc with
    | none =>
      rw [buildWordMapAux] at hx
      by_cases hws : isWs c
      · rw [if_pos hws] at hx
        have := ih (pos + 1) none (by simp) x hx
        simp only at this ⊢
        omega
      · rw [if_neg hws] at hx
        have := ih (pos + 1) (some ([c], pos)) (by intro w st h; simp at h; omega) x hx
        simpa using this
    | some t =>
      obtain ⟨w, st⟩ := t
      have hst : st ≤ pos := hacc w st rfl
      rw [buildWordMapAux] at hx
      by_cases hws : isWs c
      · rw [if_pos hws] at hx
        simp only [List.map_cons, List.mem_cons] at hx
        cases hx with
        | inl h => subst h; exact Nat.le_refl _
        | inr h =>
          have := ih (pos + 1) none (by simp) x h
          simp only at this ⊢
          omega
      · rw [if_neg hws] at hx
        have := ih (pos + 1) (some (c :: w, st)) (by intro w' st' h; simp at h; omega) x hx
        simpa using this

theorem buildWordMapAux_pairwise : ∀ (l : List Char) (pos : Nat) (acc : Option (List Char × Nat)),
    (∀ w st, acc = some (w, st) → st ≤ pos) →
    List.Pairwise (· < ·) ((buildWordMapAux l pos acc).map (fun w => w.2)) := by
  intro l
  induction l with
  | nil =>
    intro pos acc hacc
    cases acc with
    | none => simp [buildWordMapAux]
    | some t =>
      obtain ⟨w, st⟩ := t
      simp [buildWordMapAux]
  | cons c rest ih =>
    intro pos acc hacc
    cases acc with
    | none =>
      rw [buildWordMapAux]
      by_cases hws : isWs c
      · rw [if_pos hws]
        exact ih (pos + 1) none (by simp)
      · rw [if_neg hws]
        exact ih (pos + 1) (some ([c], pos)) (by intro w st h; simp at h; omega)
    | some t =>
      obtain ⟨w, st⟩ := t
      have hst : st ≤ pos := hacc w st rfl
      rw [buildWordMapAux]
      by_cases hws : isWs c
      · rw [if_pos hws]
        simp only [List.map_cons, List.pairwise_cons]
        constructor
        · intro x hx
          have := buildWordMapAux_lb rest (pos + 1) none (by simp) x hx
          simp only at this
          omega
        · exact ih (pos + 1) none (by simp)
      · rw [if_neg hws]
        exact ih (pos + 1) (some (c :: w, st)) (by intro w' st' h; simp at h; omega)

theorem wordStarts_pairwise (text : List Char) :
    List.Pairwise (· < ·) (wordStarts text) :=
  buildWordMapAux_pairwise text 0 none (by simp)

theorem getD_mono_of_pairwise (st : List Nat) (hp : List.Pairwise (· < ·) st)
    (i j : Nat) (hij : i ≤ j) (hj : j < st.length) : st.getD i 0 ≤ st.getD j 0 := by
  rcases Nat.eq_or_lt_of_le hij with heq | hlt
  · subst heq; exact Nat.le_refl _
  · have hi : i < st.length := Nat.lt_trans hlt hj
    rw [List.getD_eq_getElem st 0 hi, List.getD_eq_getElem st 0 hj]
    have := List.pairwise_iff_get.mp hp ⟨i, hi⟩ ⟨j, hj⟩ hlt
    simp only [List.get_eq_getElem] at this
    exact Nat.le_of_lt this

theorem fractionAt_mono (e1 e2 durMs : ℚ) (hdur : 0 < durMs) (he : e1 ≤ e2) :
    fractionAt e1 durMs ≤ fractionAt e2 durMs := by
  rw [fractionAt, fractionAt]
  exact min_le_min ((div_le_div_iff_of_pos_right hdur).mpr he) (le_refl 1)

/-- Claim C7: within one segment playback (fixed segment, offset and
rate, hence fixed estimated duration), a later tick never reports an
earlier word offset, and a position is emitted only when the computed
word index differs from the previously reported one. -/
theorem wordStepper_monotonic (text : List Char) (globalOffset : Nat)
    (durMs e1 e2 : ℚ) (lastWordIdx : Nat) (hdur : 0 < durMs) (he : e1 ≤ e2) :
    reportedOffsetAt text globalOffset durMs e1 ≤ reportedOffsetAt text globalOffset durMs e2 ∧
    ((stepTick text globalOffset durMs e1 lastWordIdx).2 = none ∨
      wordIdxAt (wordFractions (wordStarts text) ((wordStarts text).getLast?.getD 0))
        (fractionAt e1 durMs) ≠ lastWordIdx) := by
  constructor
  · rw [reportedOffsetAt, reportedOffsetAt]
    apply Nat.add_le_add_left
    by_cases hne : wordStarts text = []
    · simp [hne]
    · have hfr : wordFractions (wordStarts text) ((wordStarts text).getLast?.getD 0) ≠ [] := by
        rw [wordFractions]
        intro hcon
        exact hne (List.map_eq_nil_iff.mp hcon)
      have hmono := wordIdxAt_mono
        (wordFractions (wordStarts text) ((wordStarts text).getLast?.getD 0))
        (fractionAt e1 durMs) (fractionAt e2 durMs) (fractionAt_mono e1 e2 durMs hdur he)
      have hlt := wordIdxAt_lt_length
        (wordFractions (wordStarts text) ((wordStarts text).getLast?.getD 0))
        (fractionAt e2 durMs) hfr
      have hlen : (wordFractions (wordStarts text) ((wordStarts text).getLast?.getD 0)).length
          = (wordStarts text).length := by
        rw [wordFractions]
        exact List.length_map _ _
      exact getD_mono_of_pairwise (wordStarts text) (wordStarts_pairwise text) _ _ hmono
        (hlen ▸ hlt)
  · by_cases hidx : wordIdxAt (wordFractions (wordStarts text) ((wordStarts text).getLast?.getD 0))
        (fractionAt e1 durMs) ≠ lastWordIdx
    · exact Or.inr hidx
    · left
      push_neg at hidx
      simp [stepTick, hidx]

/-- Witness for claim C7 at a concrete segment and tick times. -/
theorem wordStepper_monotonic_witness :
    (0 < (1000 : ℚ) ∧ (0 : ℚ) ≤ 700) ∧
    (reportedOffsetAt "ab cd".toList 5 1000 0 ≤ reportedOffsetAt "ab cd".toList 5 1000 700 ∧
      ((stepTick "ab cd".toList 5 1000 0 0).2 = none ∨
        wordIdxAt (wordFractions (wordStarts "ab cd".toList)
            ((wordStarts "ab cd".toList).getLast?.getD 0)) (fractionAt 0 1000) ≠ 0)) :=
  ⟨⟨by norm_num, by norm_num⟩,
    wordStepper_monotonic "ab cd".toList 5 1000 0 700 0 (by norm_num) (by norm_num)⟩

/-- `estimateCps` from use-tts.ts over the reals (JS floating point is
modelled by ℝ; `Math.pow` is real exponentiation).  When a calibration
exists (`calibratedCpsRef.current > 0`) the calibrated
characters-per-second value is scaled by the rate ratio raised to the
power 0.85; otherwise a default of 14 cps is scaled by the requested
rate raised to the same power. -/
noncomputable def estimateCps (calibratedCps calibratedRate speechRate : ℝ) : ℝ :=
  if 0 < calibratedCps then
    calibratedCps * (speechRate / calibratedRate) ^ (0.85 : ℝ)
  else
    14 * speechRate ^ (0.85 : ℝ)

/-- `estimatedDurationMs` from `startWordStepper`:
`(chunkText.length / cps) * 1000`. -/
noncomputable def estimatedDurationMs (segmentLength : Nat) (cps : ℝ) : ℝ :=
  ((segmentLength : ℝ) / cps) * 1000

/-- Claim C6: with a calibration present, the estimated segment duration
is the segment length divided by the calibrated cps scaled by
`(requestedRate / rateAtCalibration) ^ 0.85`. -/
theorem estimateCps_power_law (segmentLength : Nat)
    (calibratedCps calibratedRate speechRate : ℝ) (hcal : 0 < calibratedCps) :
    estimatedDurationMs segmentLength (estimateCps calibratedCps calibratedRate speechRate) =
      ((segmentLength : ℝ) /
        (calibratedCps * (speechRate / calibratedRate) ^ (0.85 : ℝ))) * 1000 := by
  rw [estimatedDurationMs, estimateCps, if_pos hcal]

/-- Witness for claim C6 at concrete calibration values. -/
theorem estimateCps_power_law_witness :
    (0 : ℝ) < 14 ∧
    estimatedDurationMs 100 (estimateCps 14 1 2) =
      ((100 : ℝ) / (14 * ((2 : ℝ) / 1) ^ (0.85 : ℝ))) * 1000 :=
  ⟨by norm_num, estimateCps_power_law 100 14 1 2 (by norm_num)⟩

/-- Unified voice descriptor (`TTSVoice` in use-tts.ts). -/
structure TTSVoice where
  name : List Char
  lang : List Char
  localService : Bool
  voiceURI : List Char
deriving DecidableEq, Repr

/-- JS `String.prototype.trim` on character lists. -/
def trimL (l : List Char) : List Char :=
  ((l.dropWhile isWs).reverse.dropWhile isWs).reverse

/-- Decimal rendering of a number, as interpolated by JS templates. -/
def natChars (n : Nat) : List Char := (Nat.repr n).toList

/-- `seen.get(name) || 0` of `normalizeVoices` (association list for the
`Map<string, number>`). -/
def seenGet : List (List Char × Nat) → List Char → Nat
  | [], _ => 0
  | (k, v) :: rest, key => if k = key then v else seenGet rest key

/-- `seen.set(name, count)` of `normalizeVoices`. -/
def seenSet : List (List Char × Nat) → List Char → Nat → List (List Char × Nat)
  | [], key, v => [(key, v)]
  | (k, w) :: rest, key, v =>
    if k = key then (k, v) :: rest else (k, w) :: seenSet rest key v

/-- The `.map` pass of `normalizeVoices` with its running index and the
shared `seen` map: empty names fall back to the voice URI, to the
language plus index, or to `Voice N`; repeated display names get a
` #k` suffix. -/
def normalizeAux : List TTSVoice → Nat → List (List Char × Nat) → List TTSVoice
  | [], _, _ => []
  | v :: rest, index, seen =>
    let baseName := trimL (if v.name ≠ [] then v.name
      else if v.voiceURI ≠ [] then v.voiceURI
      else (if v.lang ≠ [] then v.lang else "Voice".toList) ++ (' ' :: natChars (index + 1)))
    let fallbackName := if baseName ≠ [] then baseName else "Voice ".toList ++ natChars (index + 1)
    let occurrences := seenGet seen fallbackName
    let seen2 := seenSet seen fallbackName (occurrences + 1)
    let newName := if 0 < occurrences then fallbackName ++ (' ' :: '#' :: natChars (occurrences + 1))
      else fallbackName
    let newLang :=
      let t := trimL (if v.lang ≠ [] then v.lang else "und".toList)
      if t ≠ [] then t else "und".toList
    let newURI := if v.voiceURI ≠ [] then v.voiceURI else fallbackName
    { name := newName, lang := newLang, localService := v.localService, voiceURI := newURI }
      :: normalizeAux rest (index + 1) seen2

/-- `normalizeVoices` from use-tts.ts: the indexed map pass followed by
the filter dropping whitespace-only display names. -/
def normalizeVoices (rawVoices : List TTSVoice) : List TTSVoice :=
  (normalizeAux rawVoices 0 []).filter (fun v => 0 < (trimL v.name).length)

/-- `SYSTEM_DEFAULT_VOICES` from the voice-loading effect of use-tts.ts
(the same entries as `FALLBACK_VOICES` in native-tts.ts). -/
def SYSTEM_DEFAULT_VOICES : List TTSVoice :=
  [{ name := "🔊 Voz padrão do sistema".toList, lang := "pt-BR".toList, localService := true,
     voiceURI := "__system_default__".toList },
   { name := "🔊 System default voice".toList, lang := "en-US".toList, localService := true,
     voiceURI := "__system_default_en__".toList }]

/-- A synthetic system-default entry
(`v.voiceURI.startsWith('__system_default')`). -/
def isSystemDefaultVoice (v : TTSVoice) : Bool :=
  startsWithL "__system_default".toList v.voiceURI

/-- `ensureVoices` from use-tts.ts.  Note that both non-empty branches
return `mapped` unchanged: no synthetic entry is added to a non-empty
voice list that lacks one. -/
def ensureVoices (mapped : List TTSVoice) : List TTSVoice :=
  if mapped.isEmpty then SYSTEM_DEFAULT_VOICES
  else if mapped.any isSystemDefaultVoice then mapped
  else mapped

/-- Pairwise distinctness of display names. -/
def allDistinct : List (List Char) → Bool
  | [] => true
  | x :: rest => !(rest.contains x) && allDistinct rest

/-- Raw voices falsifying claim C9: two voices named `A` and one voice
named `A #2`, none of them synthetic. -/
def c9raw : List TTSVoice :=
  [{ name := "A".toList, lang := "en".toList, localService := true, voiceURI := "uriA".toList },
   { name := "A".toList, lang := "en".toList, localService := true, voiceURI := "uriB".toList },
   { name := "A #2".toList, lang := "en".toList, localService := true, voiceURI := "uriC".toList }]

theorem normalizeAux_name_ne_nil : ∀ (raw : List TTSVoice) (index : Nat)
    (seen : List (List Char × Nat)) (v : TTSVoice),
    v ∈ normalizeAux raw index seen → v.name ≠ [] := by
  intro raw
  induction raw with
  | nil => intro index seen v hv; simp [normalizeAux] at hv
  | cons w rest ih =>
    intro index seen v hv
    rw [normalizeAux] at hv
    simp only [List.mem_cons] at hv
    cases hv with
    | inr h => exact ih _ _ v h
    | inl h =>
      subst h
      simp only
      have key : ∀ (fb tail : List Char) (occ : Nat), fb ≠ [] →
          (if 0 < occ then fb ++ tail else fb) ≠ [] := by
        intro fb tail occ hfb
        split
        · intro hcon
          rw [List.append_eq_nil] at hcon
          exact hfb hcon.1
        · exact hfb
      have fbne : ∀ (X d : List Char),
          (if trimL X ≠ [] then trimL X else "Voice ".toList ++ d) ≠ [] := by
        intro X d
        split
        · assumption
        · intro hcon
          rw [List.append_eq_nil] at hcon
          have h2 := hcon.1
          simp at h2
      exact key _ _ _ (fbne _ _)

theorem ensureVoices_ne_nil (mapped : List TTSVoice) : ensureVoices mapped ≠ [] := by
  rw [ensureVoices]
  split
  · simp [SYSTEM_DEFAULT_VOICES]
  · split
    · simp_all [List.isEmpty_iff]
    · simp_all [List.isEmpty_iff]

/-- Claim C9 (amended): the voice set handed to the UI is never empty
and every display name is non-empty; the synthetic system-default
entries are substituted exactly when the normalized list is empty (a
non-empty list without a synthetic entry is exposed unchanged). -/
theorem voices_normalized_nonempty (raw : List TTSVoice) :
    ensureVoices (normalizeVoices raw) ≠ [] ∧
    (ensureVoices (normalizeVoices raw)).all (fun v => !v.name.isEmpty) = true ∧
    ensureVoices (normalizeVoices []) = SYSTEM_DEFAULT_VOICES := by
  refine ⟨ensureVoices_ne_nil _, ?_, by decide⟩
  rw [List.all_eq_true]
  intro v hv
  rw [ensureVoices] at hv
  have hname : ∀ u : TTSVoice, u ∈ normalizeVoices raw → u.name ≠ [] := by
    intro u hu
    rw [normalizeVoices] at hu
    exact normalizeAux_name_ne_nil raw 0 [] u (List.mem_of_mem_filter hu)
  split at hv
  · revert hv
    simp [SYSTEM_DEFAULT_VOICES]
    rintro (rfl | rfl) <;> decide
  · split at hv <;>
      simpa using hname v hv

/-- Claim C9 counterexample: for `c9raw` the exposed set has a repeated
display name and contains no synthetic system-default entry. -/
theorem voices_system_default_counterexample :
    ¬ (allDistinct ((ensureVoices (normalizeVoices c9raw)).map (fun v => v.name)) = true ∧
       (ensureVoices (normalizeVoices c9raw)).any isSystemDefaultVoice = true) := by decide

/-- The state of the `useTTS` hook together with the module-level state
of keep-awake.ts and foreground-service.ts, on the native platform
(`useNativeRef.current = true`).  React state and refs are flattened
into one record.  `wlAcquires`/`wlReleases` count the effective platform
wake-lock operations (the calls guarded by the `isKeptAwake` flag);
`onEndCount` counts invocations of the registered completion callback;
`errorToasts` collects the user-facing error messages in order. -/
structure ControllerState where
  generation : Nat
  speakingRef : Bool
  pausedRef : Bool
  isSpeaking : Bool
  isPaused : Bool
  progress : ℚ
  activeCharIndex : Int
  currentChunk : Nat
  chunks : List (List Char)
  chunkOffsets : List Nat
  textLen : Nat
  calibratedCps : ℚ
  calibratedRate : ℚ
  rate : ℚ
  wordTimerActive : Bool
  installPromptShown : Bool
  wakeLockHeld : Bool
  wlAcquires : Nat
  wlReleases : Nat
  fgServiceRunning : Bool
  onEndCount : Nat
  errorToasts : List (List Char)
deriving Repr

/-- The hook's initial state: fresh refs and React state, no persisted
calibration, no resources held. -/
def initState : ControllerState :=
  { generation := 0, speakingRef := false, pausedRef := false,
    isSpeaking := false, isPaused := false, progress := 0, activeCharIndex := -1,
    currentChunk := 0, chunks := [], chunkOffsets := [], textLen := 0,
    calibratedCps := 0, calibratedRate := 1, rate := 1,
    wordTimerActive := false, installPromptShown := false,
    wakeLockHeld := false, wlAcquires := 0, wlReleases := 0,
    fgServiceRunning := false, onEndCount := 0, errorToasts := [] }

/-- `updatePosition` from use-tts.ts: sets the active character index
and, when the text is non-empty, the progress percentage. -/
def updatePosition (globalCharIndex : Nat) (s : ControllerState) : ControllerState :=
  { s with activeCharIndex := (globalCharIndex : Int),
           progress := if 0 < s.textLen
             then (globalCharIndex : ℚ) / (s.textLen : ℚ) * 100 else s.progress }

/-- `acquireWakeLock` from keep-awake.ts: a no-op while the `isKeptAwake`
flag is set, otherwise one effective platform acquisition. -/
def acquireWakeLockOp (s : ControllerState) : ControllerState :=
  if s.wakeLockHeld then s
  else { s with wakeLockHeld := true, wlAcquires := s.wlAcquires + 1 }

/-- `releaseWakeLock` from keep-awake.ts: a no-op while the flag is
clear, otherwise one effective platform release. -/
def releaseWakeLockOp (s : ControllerState) : ControllerState :=
  if !s.wakeLockHeld then s
  else { s with wakeLockHeld := false, wlReleases := s.wlReleases + 1 }

/-- `startForegroundService` from foreground-service.ts (`isRunning`
flag guard; the plugin call is assumed to succeed). -/
def startForegroundServiceOp (s : ControllerState) : ControllerState :=
  if s.fgServiceRunning then s else { s with fgServiceRunning := true }

/-- `stopForegroundService` from foreground-service.ts. -/
def stopForegroundServiceOp (s : ControllerState) : ControllerState :=
  if !s.fgServiceRunning then s else { s with fgServiceRunning := false }

/-- `clearWordTimer` from use-tts.ts (cancels the animation frame). -/
def clearWordTimerOp (s : ControllerState) : ControllerState :=
  { s with wordTimerActive := false }

/-- The synchronous prefix of `speakChunkNative(chunkIndex, gen)`: the
stale-generation guard, the end-of-text branch (reset state, release
resources, invoke the completion callback), or the per-chunk setup up to
the `await nativeSpeak(...)` suspension point (current chunk, position
update, word stepper start).  The continuation after the await is
modelled by `applyChunkDone`/`applyChunkError`. -/
def speakChunkSync (chunkIndex gen : Nat) (s : ControllerState) : ControllerState :=
  if ¬ s.speakingRef ∨ gen ≠ s.generation then s
  else if s.chunks.length ≤ chunkIndex then
    let s1 := { s with speakingRef := false, isSpeaking := false, isPaused := false,
                       progress := 100, activeCharIndex := -1, wordTimerActive := false }
    let s2 := releaseWakeLockOp s1
    let s3 := stopForegroundServiceOp s2
    { s3 with onEndCount := s3.onEndCount + 1 }
  else
    let chunkText := s.chunks.getD chunkIndex []
    let globalOffset := s.chunkOffsets.getD chunkIndex 0
    let s1 := { s with currentChunk := chunkIndex }
    let s2 := updatePosition globalOffset s1
    -- startWordStepper: a no-op for a wordless chunk, otherwise the
    -- initial emission of words[0].start and the scheduled tick loop
    match buildWordMap chunkText with
    | [] => s2
    | w0 :: _ => { updatePosition (globalOffset + w0.2) s2 with wordTimerActive := true }

/-- Asynchronous continuations of `speakChunkNative`: resolution or
rejection of the awaited `nativeSpeak` promise, tagged with the
generation captured by the issuing session.  For `chunkDone`, `calib`
is `some actualCps` when the wall-clock duration passed the plausibility
gates (`actualDurationMs > 100` and `2 < actualCps < 50`), which are
timing facts outside the model.  For `chunkError`, `noEngine` is the
result of the no-engine regex test on the message. -/
inductive TTSEvent where
  | chunkDone (chunkIndex gen : Nat) (calib : Option ℚ)
  | chunkError (chunkIndex gen : Nat) (msg : List Char) (noEngine : Bool)

/-- The generation an asynchronous callback carries. -/
def eventGen : TTSEvent → Nat
  | .chunkDone _ g _ => g
  | .chunkError _ g _ _ => g

/-- The continuation of `speakChunkNative` after `await nativeSpeak`
resolves: the calibration update (which the source performs before the
generation check), `clearWordTimer()`, and the guarded advance
`if (speakingRef.current && gen === generationRef.current && !pausedRef.current)`. -/
def applyChunkDone (chunkIndex gen : Nat) (calib : Option ℚ) (s : ControllerState) :
    ControllerState :=
  let s1 := match calib with
    | some actualCps =>
      { s with calibratedCps := if 0 < s.calibratedCps
                 then s.calibratedCps * (3 / 10) + actualCps * (7 / 10) else actualCps,
               calibratedRate := s.rate }
    | none => s
  let s2 := clearWordTimerOp s1
  if s2.speakingRef ∧ gen = s2.generation ∧ ¬ s2.pausedRef then
    speakChunkSync (chunkIndex + 1) gen s2
  else s2

/-- The `catch` branch of `speakChunkNative`: a pause-induced stop and a
stale generation are swallowed; otherwise the one-shot install prompt
may fire, a user-facing toast is emitted (truncated to 100 characters),
and the speaking state is reset.  Progress is deliberately not reset. -/
def applyChunkError (_chunkIndex gen : Nat) (msg : List Char) (noEngine : Bool)
    (s : ControllerState) : ControllerState :=
  if s.pausedRef then clearWordTimerOp s
  else if gen ≠ s.generation then clearWordTimerOp s
  else
    let s1 := if noEngine ∧ ¬ s.installPromptShown
      then { s with installPromptShown := true } else s
    let toastMsg := if 100 < msg.length then msg.take 100 ++ ['…'] else msg
    { s1 with errorToasts := s1.errorToasts ++ [toastMsg],
              wordTimerActive := false,
              speakingRef := false, isSpeaking := false, isPaused := false,
              activeCharIndex := -1 }

/-- Dispatch of an asynchronous callback. -/
def applyEvent (s : ControllerState) : TTSEvent → ControllerState
  | .chunkDone i g calib => applyChunkDone i g calib s
  | .chunkError i g msg noEngine => applyChunkError i g msg noEngine s

/-- `cancelCurrentSpeech(resetUi)` from use-tts.ts: the unconditional
generation increment first, then flag resets, timer cancellation, chunk
list reset, and the optional UI reset. -/
def cancelCurrentSpeechOp (resetUi : Bool) (s : ControllerState) : ControllerState :=
  let s1 := { s with generation := s.generation + 1, speakingRef := false, pausedRef := false,
                     wordTimerActive := false, chunks := [], chunkOffsets := [] }
  if resetUi then
    { s1 with isSpeaking := false, isPaused := false, progress := 0, activeCharIndex := -1 }
  else s1

/-- The running global offsets of the chunk list
(`offsets.push(offset); offset += chunk.length`). -/
def chunkOffsetsFrom : Nat → List (List Char) → List Nat
  | _, [] => []
  | off, c :: rest => off :: chunkOffsetsFrom (off + c.length) rest

/-- `speakFromIndex(text, startCharIndex)` from use-tts.ts: cancel the
previous session, record the text, bail out on a whitespace-only
remainder, otherwise chunk, allocate a fresh generation, raise the
speaking flags and start chunk 0 synchronously. -/
def speakFromIndexOp (maxChunk : Nat) (text : List Char) (startCharIndex : Nat)
    (s : ControllerState) : ControllerState :=
  let s1 := cancelCurrentSpeechOp false s
  let textToSpeak := text.drop startCharIndex
  let s2 := { s1 with textLen := text.length }
  if ¬ hasNonWs textToSpeak then
    { s2 with isSpeaking := false, isPaused := false, progress := 0, activeCharIndex := -1 }
  else
    let chunks := splitIntoSentences maxChunk textToSpeak
    let offsets := chunkOffsetsFrom startCharIndex chunks
    let gen := s2.generation + 1
    let s3 := { s2 with chunks := chunks, chunkOffsets := offsets, generation := gen,
                        speakingRef := true, pausedRef := false,
                        isSpeaking := true, isPaused := false,
                        activeCharIndex := (startCharIndex : Int) }
    speakChunkSync 0 gen s3

/-- `speak(text)` from use-tts.ts: foreground service, wake lock, then
`speakFromIndex(text, 0)` (the `isLoading` flag and the rethrow path are
not tracked). -/
def speakOp (maxChunk : Nat) (text : List Char) (s : ControllerState) : ControllerState :=
  let s1 := startForegroundServiceOp s
  let s2 := acquireWakeLockOp s1
  speakFromIndexOp maxChunk text 0 s2

/-- `pause()` from use-tts.ts on the native platform: the paused flags
are set before `nativeStop()`, and the word timer is cleared.  Note that
neither the wake lock nor the foreground service is released. -/
def pauseOp (s : ControllerState) : ControllerState :=
  let s1 := { s with pausedRef := true, isPaused := true }
  clearWordTimerOp s1

/-- `resume()` from use-tts.ts on the native platform: re-raise the
speaking flags and replay the current chunk under the current
generation. -/
def resumeOp (s : ControllerState) : ControllerState :=
  let s1 := { s with pausedRef := false, speakingRef := true, isPaused := false }
  speakChunkSync s1.currentChunk s1.generation s1

/-- `stop()` from use-tts.ts: cancel with UI reset, then release the
wake lock and the foreground service. -/
def stopOp (s : ControllerState) : ControllerState :=
  let s1 := cancelCurrentSpeechOp true s
  let s2 := releaseWakeLockOp s1
  stopForegroundServiceOp s2

/-- The public controller calls of the hook. -/
inductive UserCall where
  | speak (text : List Char)
  | speakFromIdx (text : List Char) (startCharIndex : Nat)
  | pause
  | resume
  | stop

/-- Dispatch of a public controller call. -/
def applyCall (maxChunk : Nat) (s : ControllerState) : UserCall → ControllerState
  | .speak text => speakOp maxChunk text s
  | .speakFromIdx text i => speakFromIndexOp maxChunk text i s
  | .pause => pauseOp s
  | .resume => resumeOp s
  | .stop => stopOp s

/-- Claim C10: `speakFromIndex` with a whitespace-only remainder starts
no session: no chunks, speaking flag false, progress 0, active index
reset, completion callback not invoked. -/
theorem speakFromIndex_whitespace_noop (s : ControllerState) (maxChunk startCharIndex : Nat)
    (text : List Char) (h : hasNonWs (text.drop startCharIndex) = false) :
    (speakFromIndexOp maxChunk text startCharIndex s).chunks = [] ∧
    (speakFromIndexOp maxChunk text startCharIndex s).speakingRef = false ∧
    (speakFromIndexOp maxChunk text startCharIndex s).isSpeaking = false ∧
    (speakFromIndexOp maxChunk text startCharIndex s).progress = 0 ∧
    (speakFromIndexOp maxChunk text startCharIndex s).activeCharIndex = -1 ∧
    (speakFromIndexOp maxChunk text startCharIndex s).onEndCount = s.onEndCount := by
  rw [speakFromIndexOp]
  simp only [h, Bool.false_eq_true, not_false_iff, if_pos]
  simp [cancelCurrentSpeechOp]

/-- Witness for claim C10. -/
theorem speakFromIndex_whitespace_noop_witness :
    hasNonWs ("ab ".toList.drop 2) = false ∧
    ((speakFromIndexOp 4000 "ab ".toList 2 initState).chunks = [] ∧
     (speakFromIndexOp 4000 "ab ".toList 2 initState).speakingRef = false ∧
     (speakFromIndexOp 4000 "ab ".toList 2 initState).isSpeaking = false ∧
     (speakFromIndexOp 4000 "ab ".toList 2 initState).progress = 0 ∧
     (speakFromIndexOp 4000 "ab ".toList 2 initState).activeCharIndex = -1 ∧
     (speakFromIndexOp 4000 "ab ".toList 2 initState).onEndCount = initState.onEndCount) :=
  ⟨by decide, speakFromIndex_whitespace_noop initState 4000 2 "ab ".toList (by decide)⟩

/-- Claim C4 (amended): the wake lock and the foreground-service grant
are released by `stop()` and by the end-of-text branch of
`speakChunkNative`; the fatal-error and pause paths do not release them
(see the counterexample). -/
theorem resources_released_on_stop_and_completion (s t : ControllerState) (i : Nat)
    (h1 : t.speakingRef = true) (h2 : t.chunks.length ≤ i) :
    (stopOp s).wakeLockHeld = false ∧ (stopOp s).fgServiceRunning = false ∧
    (speakChunkSync i t.generation t).wakeLockHeld = false ∧
    (speakChunkSync i t.generation t).fgServiceRunning = false := by
  refine ⟨?_, ?_, ?_, ?_⟩ <;>
    simp only [stopOp, speakChunkSync, cancelCurrentSpeechOp, releaseWakeLockOp,
      stopForegroundServiceOp, h1, h2, if_pos, if_true, not_true, ne_eq, or_false,
      Bool.true_eq_false, false_or] <;>
    split_ifs <;> simp_all

/-- Witness for the amended claim C4. -/
theorem resources_released_witness :
    (({ initState with speakingRef := true } : ControllerState).speakingRef = true ∧
      ({ initState with speakingRef := true } : ControllerState).chunks.length ≤ 0) ∧
    ((stopOp initState).wakeLockHeld = false ∧ (stopOp initState).fgServiceRunning = false ∧
     (speakChunkSync 0 ({ initState with speakingRef := true } : ControllerState).generation
        { initState with speakingRef := true }).wakeLockHeld = false ∧
     (speakChunkSync 0 ({ initState with speakingRef := true } : ControllerState).generation
        { initState with speakingRef := true }).fgServiceRunning = false) :=
  ⟨⟨by decide, by decide⟩,
    resources_released_on_stop_and_completion initState
      { initState with speakingRef := true } 0 (by decide) (by decide)⟩

/-- Text used by the claim C4 counterexample. -/
def c4text : List Char := "Hello.".toList

/-- The descriptive error thrown by `nativeSpeak` in native-tts.ts when
every engine (local and cloud) failed. -/
def allBackendsFailedMsg : List Char :=
  ("Nenhum motor de voz produziu áudio (local e nuvem falharam). " ++
   "Verifique sua conexão de internet ou instale um motor TTS nas " ++
   "configurações do Android.").toList

/-- Claim C4 counterexample: after `speak` acquires both resources, a
fatal backend error for the current generation ends the session in the
error state but leaves the wake lock and the foreground service held. -/
theorem resources_not_released_on_fatal_error :
    (applyEvent (applyCall 4000 initState (UserCall.speak c4text))
        (TTSEvent.chunkError 0 2 allBackendsFailedMsg false)).wakeLockHeld = true ∧
    (applyEvent (applyCall 4000 initState (UserCall.speak c4text))
        (TTSEvent.chunkError 0 2 allBackendsFailedMsg false)).fgServiceRunning = true ∧
    (applyEvent (applyCall 4000 initState (UserCall.speak c4text))
        (TTSEvent.chunkError 0 2 allBackendsFailedMsg false)).speakingRef = false ∧
    (applyEvent (applyCall 4000 initState (UserCall.speak c4text))
        (TTSEvent.chunkError 0 2 allBackendsFailedMsg false)).errorToasts ≠ [] := by
  refine ⟨by decide, by decide, by decide, by decide⟩

/-- The wake-lock accounting invariant: effective acquisitions exceed
effective releases by exactly the flag value. -/
def wlInv (s : ControllerState) : Prop :=
  s.wlAcquires = s.wlReleases + (if s.wakeLockHeld then 1 else 0)

theorem wlInv_of_eq {s t : ControllerState} (h : wlInv s)
    (ha : t.wlAcquires = s.wlAcquires) (hr : t.wlReleases = s.wlReleases)
    (hw : t.wakeLockHeld = s.wakeLockHeld) : wlInv t := by
  rw [wlInv, ha, hr, hw]
  exact h

theorem wlInv_acquire (s : ControllerState) (h : wlInv s) : wlInv (acquireWakeLockOp s) := by
  rw [acquireWakeLockOp]
  split_ifs with hw
  · exact h
  · simp only [Bool.not_eq_true] at hw
    rw [wlInv] at h ⊢
    simp [hw] at h
    simp [h]

theorem wlInv_release (s : ControllerState) (h : wlInv s) : wlInv (releaseWakeLockOp s) := by
  rw [releaseWakeLockOp]
  split_ifs with hw
  · exact h
  · have hw2 : s.wakeLockHeld = true := by
      cases hval : s.wakeLockHeld
      · rw [hval] at hw
        simp at hw
      · rfl
    rw [wlInv] at h ⊢
    simp [hw2] at h
    simp [h]

theorem wlInv_startFg (s : ControllerState) (h : wlInv s) : wlInv (startForegroundServiceOp s) := by
  rw [startForegroundServiceOp]
  split_ifs
  · exact h
  · exact wlInv_of_eq h rfl rfl rfl

theorem wlInv_stopFg (s : ControllerState) (h : wlInv s) : wlInv (stopForegroundServiceOp s) := by
  rw [stopForegroundServiceOp]
  split_ifs
  · exact h
  · exact wlInv_of_eq h rfl rfl rfl

theorem wlInv_cancel (b : Bool) (s : ControllerState) (h : wlInv s) :
    wlInv (cancelCurrentSpeechOp b s) := by
  simp only [cancelCurrentSpeechOp]
  split_ifs <;> exact wlInv_of_eq h rfl rfl rfl

theorem wlInv_updatePosition (g : Nat) (t : ControllerState) (h : wlInv t) :
    wlInv (updatePosition g t) :=
  wlInv_of_eq h rfl rfl rfl

theorem wlInv_set_onEnd (n : Nat) (t : ControllerState) (h : wlInv t) :
    wlInv { t with onEndCount := n } :=
  wlInv_of_eq h rfl rfl rfl

theorem wlInv_set_wordTimer (b : Bool) (t : ControllerState) (h : wlInv t) :
    wlInv { t with wordTimerActive := b } :=
  wlInv_of_eq h rfl rfl rfl

theorem wlInv_sync (i g : Nat) (s : ControllerState) (h : wlInv s) :
    wlInv (speakChunkSync i g s) := by
  simp only [speakChunkSync]
  split_ifs with h1 h2
  · exact h
  · have hx : wlInv (releaseWakeLockOp { s with speakingRef := false, isSpeaking := false, isPaused := false, progress := 100, activeCharIndex := -1, wordTimerActive := false }) :=
      wlInv_release _ (wlInv_of_eq h rfl rfl rfl)
    have hy := wlInv_stopFg _ hx
    exact wlInv_set_onEnd _ _ hy
  · cases hbw : buildWordMap (s.chunks.getD i []) with
    | nil => exact wlInv_updatePosition _ _ (wlInv_of_eq h rfl rfl rfl)
    | cons w0 rest =>
      exact wlInv_set_wordTimer _ _
        (wlInv_updatePosition _ _ (wlInv_updatePosition _ _ (wlInv_of_eq h rfl rfl rfl)))

theorem wlInv_sfi (maxChunk : Nat) (text : List Char) (i : Nat) (s : ControllerState)
    (h : wlInv s) : wlInv (speakFromIndexOp maxChunk text i s) := by
  simp only [speakFromIndexOp]
  split_ifs with h1
  · apply wlInv_sync
    exact wlInv_of_eq (wlInv_cancel false s h) rfl rfl rfl
  · exact wlInv_of_eq (wlInv_cancel false s h) rfl rfl rfl

theorem wlInv_call (maxChunk : Nat) (s : ControllerState) (c : UserCall) (h : wlInv s) :
    wlInv (applyCall maxChunk s c) := by
  cases c with
  | speak text => exact wlInv_sfi _ _ _ _ (wlInv_acquire _ (wlInv_startFg _ h))
  | speakFromIdx text i => exact wlInv_sfi _ _ _ _ h
  | pause => exact wlInv_of_eq h rfl rfl rfl
  | resume =>
    apply wlInv_sync
    exact wlInv_of_eq h rfl rfl rfl
  | stop => exact wlInv_stopFg _ (wlInv_release _ (wlInv_cancel _ _ h))

/-- Claim C5: over any sequence of controller calls the number of
effective wake-lock acquisitions minus releases stays 0 or 1 (never
negative, never more than one), and the flag-guarded operations are
no-ops when the lock is already held resp. not held. -/
theorem wakeLock_resource_symmetry (maxChunk : Nat) (calls : List UserCall)
    (s : ControllerState) :
    ((calls.foldl (applyCall maxChunk) initState).wlReleases ≤
        (calls.foldl (applyCall maxChunk) initState).wlAcquires ∧
      (calls.foldl (applyCall maxChunk) initState).wlAcquires -
        (calls.foldl (applyCall maxChunk) initState).wlReleases ≤ 1) ∧
    acquireWakeLockOp { s with wakeLockHeld := true } = { s with wakeLockHeld := true } ∧
    releaseWakeLockOp { s with wakeLockHeld := false } = { s with wakeLockHeld := false } := by
  have hfold : ∀ (cs : List UserCall) (t : ControllerState), wlInv t →
      wlInv (cs.foldl (applyCall maxChunk) t) := by
    intro cs
    induction cs with
    | nil => intro t ht; exact ht
    | cons c rest ih =>
      intro t ht
      exact ih _ (wlInv_call maxChunk t c ht)
  have hF := hfold calls initState (by simp [wlInv, initState])
  refine ⟨?_, ?_, ?_⟩
  · rw [wlInv] at hF
    split_ifs at hF <;> omega
  · rw [acquireWakeLockOp]
    simp
  · rw [releaseWakeLockOp]
    simp

theorem releaseWakeLockOp_generation (s : ControllerState) :
    (releaseWakeLockOp s).generation = s.generation := by
  rw [releaseWakeLockOp]
  split_ifs <;> rfl

theorem stopForegroundServiceOp_generation (s : ControllerState) :
    (stopForegroundServiceOp s).generation = s.generation := by
  rw [stopForegroundServiceOp]
  split_ifs <;> rfl

theorem speakChunkSync_generation (i g : Nat) (s : ControllerState) :
    (speakChunkSync i g s).generation = s.generation := by
  simp only [speakChunkSync]
  split_ifs with h1 h2
  · rfl
  · simp only [stopForegroundServiceOp_generation, releaseWakeLockOp_generation]
  · cases buildWordMap (s.chunks.getD i []) with
    | nil => rfl
    | cons w0 rest => rfl

theorem applyEvent_stale (s : ControllerState) (e : TTSEvent) (h : eventGen e ≠ s.generation) :
    (applyEvent s e).progress = s.progress ∧
    (applyEvent s e).currentChunk = s.currentChunk ∧
    (applyEvent s e).isSpeaking = s.isSpeaking ∧
    (applyEvent s e).speakingRef = s.speakingRef ∧
    (applyEvent s e).activeCharIndex = s.activeCharIndex ∧
    (applyEvent s e).generation = s.generation := by
  cases e with
  | chunkDone i g calib =>
    simp only [eventGen] at h
    cases calib with
    | none =>
      simp only [applyEvent, applyChunkDone, clearWordTimerOp]
      rw [if_neg]
      · exact ⟨rfl, rfl, rfl, rfl, rfl, rfl⟩
      · intro hc
        exact h hc.2.1
    | some q =>
      simp only [applyEvent, applyChunkDone, clearWordTimerOp]
      rw [if_neg]
      · exact ⟨rfl, rfl, rfl, rfl, rfl, rfl⟩
      · intro hc
        exact h hc.2.1
  | chunkError i g msg noEngine =>
    simp only [eventGen] at h
    simp only [applyEvent, applyChunkError, clearWordTimerOp]
    split_ifs with hp
    · exact ⟨rfl, rfl, rfl, rfl, rfl, rfl⟩
    · exact ⟨rfl, rfl, rfl, rfl, rfl, rfl⟩

theorem foldl_stale (g : Nat) : ∀ (events : List TTSEvent) (s : ControllerState),
    (∀ e ∈ events, eventGen e = g) → g ≠ s.generation →
    ((events.foldl applyEvent s).progress = s.progress ∧
     (events.foldl applyEvent s).currentChunk = s.currentChunk ∧
     (events.foldl applyEvent s).isSpeaking = s.isSpeaking ∧
     (events.foldl applyEvent s).speakingRef = s.speakingRef ∧
     (events.foldl applyEvent s).activeCharIndex = s.activeCharIndex ∧
     (events.foldl applyEvent s).generation = s.generation) := by
  intro events
  induction events with
  | nil =>
    intro s _ _
    exact ⟨rfl, rfl, rfl, rfl, rfl, rfl⟩
  | cons e rest ih =>
    intro s hev hg
    simp only [List.foldl_cons]
    have he : eventGen e = g := hev e (List.mem_cons_self e rest)
    have hstale : eventGen e ≠ s.generation := by
      rw [he]
      exact hg
    obtain ⟨p1, p2, p3, p4, p5, p6⟩ := applyEvent_stale s e hstale
    have hg2 : g ≠ (applyEvent s e).generation := by
      rw [p6]
      exact hg
    obtain ⟨q1, q2, q3, q4, q5, q6⟩ :=
      ih (applyEvent s e) (fun e2 h2 => hev e2 (List.mem_cons_of_mem e h2)) hg2
    exact ⟨q1.trans p1, q2.trans p2, q3.trans p3, q4.trans p4, q5.trans p5, q6.trans p6⟩

theorem speakFromIndexOp_generation (maxChunk : Nat) (text : List Char) (i : Nat)
    (s : ControllerState) (h : hasNonWs (text.drop i) = true) :
    (speakFromIndexOp maxChunk text i s).generation = s.generation + 2 := by
  simp only [speakFromIndexOp, h]
  rw [if_neg (by simp)]
  rw [speakChunkSync_generation]
  simp [cancelCurrentSpeechOp]

theorem stopOp_generation (s : ControllerState) : (stopOp s).generation = s.generation + 1 := by
  simp only [stopOp]
  rw [stopForegroundServiceOp_generation, releaseWakeLockOp_generation]
  simp [cancelCurrentSpeechOp]

/-- Claim C3: `stop()` increments the generation; a fresh
`speakFromIndex` increments it (twice: once in the embedded cancel, once
for the new session); and once session B has superseded session A, any
sequence of asynchronous callbacks carrying A's generation leaves every
controller-visible field (progress, active segment index, speaking
flags, active character index) exactly as B set them. -/
theorem useTTS_generation_invalidation (s0 : ControllerState) (maxChunk iA iB : Nat)
    (textA textB : List Char) (events : List TTSEvent)
    (hA : hasNonWs (textA.drop iA) = true) (hB : hasNonWs (textB.drop iB) = true)
    (hev : ∀ e ∈ events, eventGen e = (speakFromIndexOp maxChunk textA iA s0).generation) :
    (speakFromIndexOp maxChunk textA iA s0).generation = s0.generation + 2 ∧
    (stopOp s0).generation = s0.generation + 1 ∧
    (speakFromIndexOp maxChunk textB iB (speakFromIndexOp maxChunk textA iA s0)).generation
      = s0.generation + 4 ∧
    ((events.foldl applyEvent
        (speakFromIndexOp maxChunk textB iB (speakFromIndexOp maxChunk textA iA s0))).progress
      = (speakFromIndexOp maxChunk textB iB (speakFromIndexOp maxChunk textA iA s0)).progress ∧
     (events.foldl applyEvent
        (speakFromIndexOp maxChunk textB iB (speakFromIndexOp maxChunk textA iA s0))).currentChunk
      = (speakFromIndexOp maxChunk textB iB (speakFromIndexOp maxChunk textA iA s0)).currentChunk ∧
     (events.foldl applyEvent
        (speakFromIndexOp maxChunk textB iB (speakFromIndexOp maxChunk textA iA s0))).isSpeaking
      = (speakFromIndexOp maxChunk textB iB (speakFromIndexOp maxChunk textA iA s0)).isSpeaking ∧
     (events.foldl applyEvent
        (speakFromIndexOp maxChunk textB iB (speakFromIndexOp maxChunk textA iA s0))).speakingRef
      = (speakFromIndexOp maxChunk textB iB (speakFromIndexOp maxChunk textA iA s0)).speakingRef ∧
     (events.foldl applyEvent
        (speakFromIndexOp maxChunk textB iB (speakFromIndexOp maxChunk textA iA s0))).activeCharIndex
      = (speakFromIndexOp maxChunk textB iB
          (speakFromIndexOp maxChunk textA iA s0)).activeCharIndex) := by
  have h1 := speakFromIndexOp_generation maxChunk textA iA s0 hA
  have h3 : (speakFromIndexOp maxChunk textB iB (speakFromIndexOp maxChunk textA iA s0)).generation
      = s0.generation + 4 := by
    rw [speakFromIndexOp_generation maxChunk textB iB _ hB, h1]
  refine ⟨h1, stopOp_generation s0, h3, ?_⟩
  have hg : (speakFromIndexOp maxChunk textA iA s0).generation
      ≠ (speakFromIndexOp maxChunk textB iB (speakFromIndexOp maxChunk textA iA s0)).generation := by
    rw [h1, h3]
    omega
  obtain ⟨p1, p2, p3, p4, p5, p6⟩ := foldl_stale _ events _ hev hg
  exact ⟨p1, p2, p3, p4, p5⟩

/-- Witness for claim C3 at a concrete pair of sessions and one stale
callback. -/
theorem useTTS_generation_invalidation_witness :
    (hasNonWs ("Ola mundo.".toList.drop 0) = true ∧
     hasNonWs ("Outro texto.".toList.drop 0) = true ∧
     (∀ e ∈ [TTSEvent.chunkDone 0 2 none],
        eventGen e = (speakFromIndexOp 80 "Ola mundo.".toList 0 initState).generation)) ∧
    ((speakFromIndexOp 80 "Ola mundo.".toList 0 initState).generation
        = initState.generation + 2 ∧
     (stopOp initState).generation = initState.generation + 1 ∧
     (speakFromIndexOp 80 "Outro texto.".toList 0
        (speakFromIndexOp 80 "Ola mundo.".toList 0 initState)).generation
        = initState.generation + 4 ∧
     (([TTSEvent.chunkDone 0 2 none].foldl applyEvent
        (speakFromIndexOp 80 "Outro texto.".toList 0
          (speakFromIndexOp 80 "Ola mundo.".toList 0 initState))).progress
      = (speakFromIndexOp 80 "Outro texto.".toList 0
          (speakFromIndexOp 80 "Ola mundo.".toList 0 initState)).progress ∧
      ([TTSEvent.chunkDone 0 2 none].foldl applyEvent
        (speakFromIndexOp 80 "Outro texto.".toList 0
          (speakFromIndexOp 80 "Ola mundo.".toList 0 initState))).currentChunk
      = (speakFromIndexOp 80 "Outro texto.".toList 0
          (speakFromIndexOp 80 "Ola mundo.".toList 0 initState)).currentChunk ∧
      ([TTSEvent.chunkDone 0 2 none].foldl applyEvent
        (speakFromIndexOp 80 "Outro texto.".toList 0
          (speakFromIndexOp 80 "Ola mundo.".toList 0 initState))).isSpeaking
      = (speakFromIndexOp 80 "Outro texto.".toList 0
          (speakFromIndexOp 80 "Ola mundo.".toList 0 initState)).isSpeaking ∧
      ([TTSEvent.chunkDone 0 2 none].foldl applyEvent
        (speakFromIndexOp 80 "Outro texto.".toList 0
          (speakFromIndexOp 80 "Ola mundo.".toList 0 initState))).speakingRef
      = (speakFromIndexOp 80 "Outro texto.".toList 0
          (speakFromIndexOp 80 "Ola mundo.".toList 0 initState)).speakingRef ∧
      ([TTSEvent.chunkDone 0 2 none].foldl applyEvent
        (speakFromIndexOp 80 "Outro texto.".toList 0
          (speakFromIndexOp 80 "Ola mundo.".toList 0 initState))).activeCharIndex
      = (speakFromIndexOp 80 "Outro texto.".toList 0
          (speakFromIndexOp 80 "Ola mundo.".toList 0 initState)).activeCharIndex)) :=
  ⟨⟨by decide, by decide, by decide⟩,
    useTTS_generation_invalidation initState 80 0 0 "Ola mundo.".toList "Outro texto.".toList
      [TTSEvent.chunkDone 0 2 none] (by decide) (by decide) (by decide)⟩

theorem releaseWakeLockOp_onEndCount (s : ControllerState) :
    (releaseWakeLockOp s).onEndCount = s.onEndCount := by
  rw [releaseWakeLockOp]
  split_ifs <;> rfl

theorem stopForegroundServiceOp_onEndCount (s : ControllerState) :
    (stopForegroundServiceOp s).onEndCount = s.onEndCount := by
  rw [stopForegroundServiceOp]
  split_ifs <;> rfl

theorem releaseWakeLockOp_speakingRef (s : ControllerState) :
    (releaseWakeLockOp s).speakingRef = s.speakingRef := by
  rw [releaseWakeLockOp]
  split_ifs <;> rfl

theorem stopForegroundServiceOp_speakingRef (s : ControllerState) :
    (stopForegroundServiceOp s).speakingRef = s.speakingRef := by
  rw [stopForegroundServiceOp]
  split_ifs <;> rfl

/-- A session in mid-playback: speaking, not paused, under generation
`g`, with chunk list `c` and `cnt` completion callbacks so far. -/
def MidP (c : List (List Char)) (g cnt : Nat) (s : ControllerState) : Prop :=
  s.speakingRef = true ∧ s.pausedRef = false ∧ s.generation = g ∧
  s.chunks = c ∧ s.onEndCount = cnt

theorem speakFromIndexOp_setup (s0 : ControllerState) (maxChunk : Nat) (text : List Char)
    (h1 : hasNonWs text = true) (h2 : 0 < (splitIntoSentences maxChunk text).length) :
    MidP (splitIntoSentences maxChunk text) (speakFromIndexOp maxChunk text 0 s0).generation
      s0.onEndCount (speakFromIndexOp maxChunk text 0 s0) := by
  have hgen : (speakFromIndexOp maxChunk text 0 s0).generation
      = (speakFromIndexOp maxChunk text 0 s0).generation := rfl
  refine ⟨?_, ?_, hgen, ?_, ?_⟩ <;>
  · simp only [speakFromIndexOp, List.drop_zero, h1]
    rw [if_neg (by simp)]
    simp only [speakChunkSync]
    rw [if_neg (by simp)]
    rw [if_neg (by exact Nat.not_le.mpr h2)]
    split <;> rfl

theorem applyChunkDone_mid (c : List (List Char)) (g cnt i : Nat) (s : ControllerState)
    (h : MidP c g cnt s) (hi : i + 1 < c.length) :
    MidP c g cnt (applyChunkDone i g none s) := by
  obtain ⟨hs, hp, hg, hc, ho⟩ := h
  simp only [applyChunkDone, clearWordTimerOp]
  rw [if_pos ⟨hs, hg.symm, by simp [hp]⟩]
  simp only [speakChunkSync]
  rw [if_neg (by simp [hs, ← hg])]
  rw [if_neg (by simp only [hc]; omega)]
  refine ⟨?_, ?_, ?_, ?_, ?_⟩ <;> (split <;> first | exact hs | exact hp | exact hg | exact hc | exact ho)

theorem applyChunkDone_finish (c : List (List Char)) (g cnt i : Nat) (s : ControllerState)
    (h : MidP c g cnt s) (hi : c.length ≤ i + 1) :
    (applyChunkDone i g none s).onEndCount = cnt + 1 ∧
    (applyChunkDone i g none s).speakingRef = false ∧
    (applyChunkDone i g none s).pausedRef = false ∧
    (applyChunkDone i g none s).generation = g := by
  obtain ⟨hs, hp, hg, hc, ho⟩ := h
  simp only [applyChunkDone, clearWordTimerOp]
  rw [if_pos ⟨hs, hg.symm, by simp [hp]⟩]
  simp only [speakChunkSync]
  rw [if_neg (by simp [hs, ← hg])]
  rw [if_pos (by simp only [hc]; omega)]
  refine ⟨?_, ?_, ?_, ?_⟩
  · simp only [stopForegroundServiceOp_onEndCount, releaseWakeLockOp_onEndCount]
    simp [ho]
  · simp only [stopForegroundServiceOp_speakingRef, releaseWakeLockOp_speakingRef]
  · simp only [stopForegroundServiceOp]
    split_ifs
    · simp only [releaseWakeLockOp]
      split_ifs <;> exact hp
    · simp only [releaseWakeLockOp]
      split_ifs <;> exact hp
  · simp only [stopForegroundServiceOp_generation, releaseWakeLockOp_generation]
    exact hg

theorem run_dones (c : List (List Char)) (g cnt : Nat) : ∀ (m j : Nat) (s : ControllerState),
    MidP c g cnt s → j + m = c.length → 0 < m →
    ((((List.range' j m).map (fun k => TTSEvent.chunkDone k g none)).foldl applyEvent s).onEndCount
        = cnt + 1 ∧
     (((List.range' j m).map (fun k => TTSEvent.chunkDone k g none)).foldl applyEvent s).speakingRef
        = false) := by
  intro m
  induction m with
  | zero =>
    intro j s _ _ hm
    omega
  | succ m' ih =>
    intro j s h hlen _
    rw [List.range'_succ]
    simp only [List.map_cons, List.foldl_cons]
    by_cases hm' : m' = 0
    · subst hm'
      simp only [List.range', List.map_nil, List.foldl_nil]
      have hfin := applyChunkDone_finish c g cnt j s h (by omega)
      exact ⟨hfin.1, hfin.2.1⟩
    · have hmid := applyChunkDone_mid c g cnt j s h (by omega)
      exact ih (j + 1) (applyEvent s (TTSEvent.chunkDone j g none)) hmid (by omega) (by omega)

theorem applyChunkDone_not_speaking (i g' : Nat) (s : ControllerState)
    (h : s.speakingRef = false) :
    (applyChunkDone i g' none s).onEndCount = s.onEndCount ∧
    (applyChunkDone i g' none s).speakingRef = false := by
  simp only [applyChunkDone, clearWordTimerOp]
  rw [if_neg]
  · exact ⟨rfl, h⟩
  · intro hc
    rw [h] at hc
    simp at hc

/-- The message actually displayed by the error toast (truncated to 100
characters plus an ellipsis). -/
def toastOfMsg (msg : List Char) : List Char :=
  if 100 < msg.length then msg.take 100 ++ ['…'] else msg

theorem applyChunkError_active (i g : Nat) (msg : List Char) (noEngine : Bool)
    (s : ControllerState) (hp : s.pausedRef = false) (hg : s.generation = g) :
    (applyChunkError i g msg noEngine s).onEndCount = s.onEndCount ∧
    (applyChunkError i g msg noEngine s).errorToasts = s.errorToasts ++ [toastOfMsg msg] := by
  simp only [applyChunkError]
  rw [if_neg (by simp [hp])]
  rw [if_neg (by simp [hg])]
  by_cases hne : (noEngine = true ∧ ¬ s.installPromptShown = true)
  · rw [if_pos hne]
    refine ⟨rfl, ?_⟩
    rw [toastOfMsg]
  · rw [if_neg hne]
    refine ⟨rfl, ?_⟩
    rw [toastOfMsg]

/-- Claim C8: a session that consumes one successful completion per
chunk invokes the registered completion callback exactly once (a further
stray completion does not invoke it again); a fatal backend failure on
the first segment invokes no completion callback and emits a non-empty
user-facing error message. -/
theorem completion_callback_exactly_once (s0 : ControllerState) (maxChunk : Nat)
    (text : List Char) (h1 : hasNonWs text = true)
    (h2 : 0 < (splitIntoSentences maxChunk text).length) :
    let sA := speakFromIndexOp maxChunk text 0 s0
    let g := sA.generation
    let n := (splitIntoSentences maxChunk text).length
    let sF := ((List.range' 0 n).map (fun k => TTSEvent.chunkDone k g none)).foldl applyEvent sA
    (sF.onEndCount = s0.onEndCount + 1 ∧
     (applyEvent sF (TTSEvent.chunkDone n g none)).onEndCount = s0.onEndCount + 1 ∧
     (applyEvent sA (TTSEvent.chunkError 0 g allBackendsFailedMsg false)).onEndCount
        = s0.onEndCount ∧
     (applyEvent sA (TTSEvent.chunkError 0 g allBackendsFailedMsg false)).errorToasts
        = sA.errorToasts ++ [toastOfMsg allBackendsFailedMsg] ∧
     toastOfMsg allBackendsFailedMsg ≠ []) := by
  intro sA g n sF
  have hmid := speakFromIndexOp_setup s0 maxChunk text h1 h2
  have hrun := run_dones (splitIntoSentences maxChunk text)
    (speakFromIndexOp maxChunk text 0 s0).generation s0.onEndCount
    (splitIntoSentences maxChunk text).length 0 (speakFromIndexOp maxChunk text 0 s0)
    hmid (Nat.zero_add _) h2
  have hstray := applyChunkDone_not_speaking (splitIntoSentences maxChunk text).length
    (speakFromIndexOp maxChunk text 0 s0).generation _ hrun.2
  have herr := applyChunkError_active 0 (speakFromIndexOp maxChunk text 0 s0).generation
    allBackendsFailedMsg false (speakFromIndexOp maxChunk text 0 s0)
    hmid.2.1 hmid.2.2.1
  exact ⟨hrun.1, hstray.1.trans hrun.1, herr.1.trans hmid.2.2.2.2, herr.2, by decide⟩

/-- Witness for claim C8 at a concrete ten-character text forming one
segment. -/
theorem completion_callback_exactly_once_witness :
    (hasNonWs "Abc defgh.".toList = true ∧
     0 < (splitIntoSentences 4000 "Abc defgh.".toList).length) ∧
    (let sA := speakFromIndexOp 4000 "Abc defgh.".toList 0 initState
     let g := sA.generation
     let n := (splitIntoSentences 4000 "Abc defgh.".toList).length
     let sF := ((List.range' 0 n).map (fun k => TTSEvent.chunkDone k g none)).foldl applyEvent sA
     (sF.onEndCount = initState.onEndCount + 1 ∧
      (applyEvent sF (TTSEvent.chunkDone n g none)).onEndCount = initState.onEndCount + 1 ∧
      (applyEvent sA (TTSEvent.chunkError 0 g allBackendsFailedMsg false)).onEndCount
         = initState.onEndCount ∧
      (applyEvent sA (TTSEvent.chunkError 0 g allBackendsFailedMsg false)).errorToasts
         = sA.errorToasts ++ [toastOfMsg allBackendsFailedMsg] ∧
      toastOfMsg allBackendsFailedMsg ≠ [])) :=
  ⟨⟨by decide, by decide⟩,
    completion_callback_exactly_once initState 4000 "Abc defgh.".toList (by decide) (by decide)⟩

/-- Witness for the amended claim C9 at a concrete raw voice list. -/
theorem voices_normalized_nonempty_witness :
    ensureVoices (normalizeVoices c9raw) ≠ [] ∧
    (ensureVoices (normalizeVoices c9raw)).all (fun v => !v.name.isEmpty) = true ∧
    ensureVoices (normalizeVoices []) = SYSTEM_DEFAULT_VOICES :=
  voices_normalized_nonempty c9raw
